import Mathlib

/-!
Verification of the hierarchical timing wheel in `libgo/common/timer.h`
(namespace `co`, class `Timer<F>`).

The development shallowly embeds the timer code:

* `Element` — the per-timer entry (`Timer::Element`): the lock-free gate
  `active_` (an `LFLock`, i.e. a single-acquire atomic flag) and the slot
  back-reference `slot_`.  The callback `cb_` is abstracted: what matters
  for the claims is *when* it is invoked, which we record explicitly.
* The placement arithmetic of `Timer::StartTimer` and the destination-point
  computation of `Timer::ThreadRun`.
* The level construction of the `Timer` constructor.

`spinlock.h` (the `LFLock` primitive), `ts_queue.h` (the `TSQueue` slot
primitive) and the body of the driver loop past the destination-point
computation are not part of the sources; where a claim depends on them they
are modelled from the spec, and each such definition says so in its doc
comment.

Machine integers: tick counts are `uint64_t` in the code; they are modelled
as `Nat` (with an explicit `% 2 ^ 64` where the conversion from a signed
value matters, see `durValU64`).
-/

namespace LibgoTimer

/-! ### The gate (`LFLock active_`)

Modelled from the spec: `spinlock.h` is not among the sources.  The spec
describes the gate as "a single-acquire mutual-exclusion flag, initially
open"; `try_lock` (`try_acquire`) succeeds exactly when the flag is clear and
sets it, `unlock` clears it, `is_lock` reads it.  We represent the flag as a
`Bool` (`true` = held). -/

/-- Result of `LFLock::try_lock` on a flag in state `g`: the success bit and
the new flag state.  Succeeds iff the flag was clear, setting it. -/
def tryLock (g : Bool) : Bool × Bool :=
  if g then (false, g) else (true, true)

/-- `LFLock::unlock`: clears the flag. -/
def unlock (_g : Bool) : Bool := false

/-- `LFLock::is_lock`: reads the flag. -/
def isLock (g : Bool) : Bool := g

/-! ### The timer entry (`Timer::Element`) -/

/-- State of a `Timer::Element` relevant to the claims: the gate `active_`
(`true` = held) and the slot back-reference `slot_` (slots are identified by
an abstract `Nat` id; `none` is the null pointer).  The callback `cb_` is
abstracted away; its invocations are reported explicitly by `Element.call`. -/
structure Element where
  gate : Bool
  slot : Option Nat
  deriving Repr, DecidableEq

/-- `Element::init` (timer.h lines 19-23):
`cb_ = cb; if (active_.try_lock()) active_.unlock(); slot_ = nullptr;`.
Note the guarded unlock: the flag is cleared only when `try_lock` succeeds,
i.e. only when it was already clear. -/
def Element.init (e : Element) : Element :=
  let r := tryLock e.gate
  let g := if r.1 then unlock r.2 else r.2
  { gate := g, slot := none }

/-- `Element::call` (timer.h lines 25-30):
`std::unique_lock<LFLock> lock(active_, std::defer_lock); if (!lock.try_lock()) return; slot_ = nullptr; cb_();`.
On a successful `try_lock` the gate is held while `slot_` is nulled and
`cb_()` runs, and the `unique_lock` destructor releases `active_` at scope
exit, so the entry is returned with the gate reopened; on failure the
`unique_lock` owns nothing and the entry is unchanged.  Returns the final
state together with the entry state observed by `cb_()` at the moment it is
invoked (`none` when the gate acquisition fails and `cb_` does not run). -/
def Element.call (e : Element) : Element × Option Element :=
  let r := tryLock e.gate
  if r.1 then
    let e1 : Element := { gate := r.2, slot := none }
    ({ gate := unlock e1.gate, slot := e1.slot }, some e1)
  else
    (e, none)

/-- `Element::cancel` (timer.h lines 33-38):
`if (!active_.try_lock()) return false; if (slot_) ((TSQueue<Element>*)slot_)->erase(this); return true;`.
Returns the final state, the boolean result, and the erase request: the slot
from which the entry is erased by identity (`none` when no erase happens).
`slot_` itself is not written by `cancel`. -/
def Element.cancel (e : Element) : Element × Bool × Option Nat :=
  let r := tryLock e.gate
  if r.1 then
    ({ e with gate := r.2 }, true, e.slot)
  else
    (e, false, none)

/-- `Element::isValid` (timer.h line 41): `return !active_.is_lock();`. -/
def Element.isValid (e : Element) : Bool := !(isLock e.gate)

/-! ### Sequences of fire/cancel attempts on one entry

The gate acquisition is a single atomic test-and-set, so any concurrent
interleaving of `call` and `cancel` attempts on one entry linearizes into a
sequence of these operations; we quantify over all such sequences. -/

/-- One attempt on an entry: a fire attempt (`Element::call`, from the
driver) or a cancel attempt (`Element::cancel`, from `StopTimer`). -/
inductive Op where
  | call : Op
  | cancel : Op
  deriving Repr, DecidableEq

/-- State transition of one attempt. -/
def stepE (e : Element) : Op → Element
  | Op.call => (Element.call e).1
  | Op.cancel => (Element.cancel e).1

/-- Entry state after a sequence of attempts. -/
def runE (e : Element) : List Op → Element
  | [] => e
  | o :: ops => runE (stepE e o) ops

/-- Number of callback executions over a sequence of attempts. -/
def fires (e : Element) : List Op → Nat
  | [] => 0
  | Op.call :: ops =>
      (if (Element.call e).2.isSome then 1 else 0) + fires (stepE e Op.call) ops
  | Op.cancel :: ops => fires (stepE e Op.cancel) ops

/-- Whether some cancel attempt in the sequence returns `true`. -/
def cancelWon (e : Element) : List Op → Bool
  | [] => false
  | Op.call :: ops => cancelWon (stepE e Op.call) ops
  | Op.cancel :: ops => (Element.cancel e).2.1 || cancelWon (stepE e Op.cancel) ops

/-! ### Basic gate lemmas -/

theorem stepE_gate_held (e : Element) (o : Op) (h : e.gate = true) :
    (stepE e o).gate = true := by
  cases o <;> simp [stepE, Element.call, Element.cancel, tryLock, h]

theorem runE_gate_held (ops : List Op) (e : Element) (h : e.gate = true) :
    (runE e ops).gate = true := by
  induction ops generalizing e with
  | nil => exact h
  | cons o ops ih => exact ih _ (stepE_gate_held e o h)

theorem fires_of_held (ops : List Op) (e : Element) (h : e.gate = true) :
    fires e ops = 0 := by
  induction ops generalizing e with
  | nil => rfl
  | cons o ops ih =>
      cases o with
      | call =>
          have hc : Element.call e = (e, none) := by
            simp [Element.call, tryLock, h]
          simp [fires, stepE, hc, ih _ (by simpa [stepE, hc] using h)]
      | cancel => exact ih _ (stepE_gate_held e Op.cancel h)

theorem cancelWon_of_held (ops : List Op) (e : Element) (h : e.gate = true) :
    cancelWon e ops = false := by
  induction ops generalizing e with
  | nil => rfl
  | cons o ops ih =>
      cases o with
      | call => simpa [cancelWon] using ih _ (stepE_gate_held e Op.call h)
      | cancel =>
          have hc : Element.cancel e = (e, false, none) := by
            simp [Element.cancel, tryLock, h]
          simp [cancelWon, hc, stepE, ih _ (by simpa [stepE, hc] using h)]

theorem runE_append (pre suf : List Op) (e : Element) :
    runE e (pre ++ suf) = runE (runE e pre) suf := by
  induction pre generalizing e with
  | nil => rfl
  | cons o pre ih => simp [runE, ih]

/-- C1 counterexample: starting from an armed entry with an open gate, two
consecutive fire attempts both run the callback (`fires = 2`); a completed
fire followed by a cancel attempt yields a winning cancel after the callback
already ran (`cancelWon = true` yet `fires = 1`); and a single completed
fire leaves the gate reopened.  The `unique_lock` in `call()` releases
`active_` at scope exit, so "never reopened until reuse", "executes at most
once" and "cancel true → never executes" all fail as stated. -/
theorem gate_at_most_once_cex :
    fires (Element.init { gate := false, slot := none }) [Op.call, Op.call] = 2
    ∧ cancelWon (Element.init { gate := false, slot := none })
        [Op.call, Op.cancel] = true
    ∧ fires (Element.init { gate := false, slot := none }) [Op.call, Op.cancel] = 1
    ∧ (runE (Element.init { gate := false, slot := none }) [Op.call]).gate = false := by
  decide

/-- C1 (amended): after a single `Element::init`, across any sequence of
fire and cancel attempts on the entry: the gate is taken only by the
open-to-held acquisition and a cancel attempt never reopens it; a winning
cancel holds it permanently — from that point on the gate stays held, no
fire attempt executes the callback, and no further cancel attempt returns
`true`.  A completed fire, however, reopens the gate when `call()` returns
(the `unique_lock` destructor releases `active_`), and a fire that ran the
callback is exactly the one way the gate reopens — so the callback runs once
per winning fire attempt rather than at most once per arming, and a cancel
attempt after a completed fire can win. -/
theorem gate_cancel_decisive (e0 : Element) (pre suf : List Op)
    (hwin : (Element.cancel (runE (Element.init e0) pre)).2.1 = true) :
    ((runE (Element.init e0) (pre ++ Op.cancel :: suf)).gate = true
      ∧ fires (stepE (runE (Element.init e0) pre) Op.cancel) suf = 0
      ∧ cancelWon (stepE (runE (Element.init e0) pre) Op.cancel) suf = false)
    ∧ (∀ e : Element,
        ((stepE e Op.call).gate = false ↔ (Element.call e).2.isSome = true))
    ∧ (∀ e : Element, e.gate = true → (stepE e Op.cancel).gate = true) := by
  have hopen : (runE (Element.init e0) pre).gate = false := by
    cases hgg : (runE (Element.init e0) pre).gate
    · rfl
    · simp [Element.cancel, tryLock, hgg] at hwin
  have hheld : (stepE (runE (Element.init e0) pre) Op.cancel).gate = true := by
    simp [stepE, Element.cancel, tryLock, hopen]
  refine ⟨⟨?_, fires_of_held suf _ hheld, cancelWon_of_held suf _ hheld⟩, ?_, ?_⟩
  · rw [runE_append]
    show (runE (stepE (runE (Element.init e0) pre) Op.cancel) suf).gate = true
    exact runE_gate_held suf _ hheld
  · intro e
    cases hg : e.gate <;> simp [stepE, Element.call, tryLock, unlock, hg]
  · intro e hg
    exact stepE_gate_held e Op.cancel hg

theorem gate_cancel_decisive_witness :
    (runE (Element.init { gate := false, slot := none })
        ([] ++ Op.cancel :: [Op.call])).gate = true
    ∧ fires (stepE (runE (Element.init { gate := false, slot := none }) [])
        Op.cancel) [Op.call] = 0 := by
  have h := gate_cancel_decisive { gate := false, slot := none } [] [Op.call]
    (by decide)
  exact ⟨h.1.1, h.1.2.1⟩

/-- `Timer::StopTimer` (timer.h lines 159-163) together with
`TimerId::StopTimer` (line 56): an empty handle (no entry or no wheel) yields
`true`; otherwise the call delegates to `Element::cancel` on the entry. -/
def StopTimer (h : Option Element) : Option Element × Bool × Option Nat :=
  match h with
  | none => (none, true, none)
  | some e =>
      let r := Element.cancel e
      (some r.1, r.2)

/-- C4 counterexample: a completed `call()` reopens the gate (the
`unique_lock` releases `active_` at scope exit), so `StopTimer` on an entry
whose callback already ran (the call's snapshot is `some`, i.e. `cb_` was
invoked) acquires the gate and returns `true` — the claim's "returns false
exactly when … the entry has fired" fails for a completed fire. -/
theorem stopTimer_after_fire_cex :
    (Element.call { gate := false, slot := some 1 }).2.isSome = true
    ∧ (StopTimer (some (Element.call { gate := false, slot := some 1 }).1)).2.1
        = true := by
  decide

/-- C4 (amended): `StopTimer` on an empty handle returns `true`; on a
non-empty handle it returns `true` exactly when it acquires the entry's gate
— which includes an entry whose callback already ran to completion, since a
completed `call()` reopens the gate — in which case the gate becomes held,
the erase request names exactly the slot of the entry's (non-null) slot
back-reference, and no callback execution can begin afterwards; it returns
`false` exactly when the gate is held (the callback is executing at this
moment, or a previous cancel won), in which case it has no further
effect. -/
theorem stopTimer_spec :
    StopTimer none = (none, true, none)
    ∧ (∀ e : Element,
        ((StopTimer (some e)).2.1 = true ↔ e.gate = false)
        ∧ (e.gate = false →
            StopTimer (some e) = (some { e with gate := true }, true, e.slot)
            ∧ ∀ ops, fires ({ e with gate := true } : Element) ops = 0)
        ∧ (e.gate = true → StopTimer (some e) = (some e, false, none)))
    ∧ (∀ e : Element, e.gate = false →
        (StopTimer (some (Element.call e).1)).2.1 = true) := by
  refine ⟨rfl, fun e => ⟨?_, ?_, ?_⟩, fun e hg => ?_⟩
  · cases hg : e.gate <;>
      simp [StopTimer, Element.cancel, tryLock, hg]
  · intro hg
    exact ⟨by simp [StopTimer, Element.cancel, tryLock, hg],
      fun ops => fires_of_held ops _ rfl⟩
  · intro hg
    simp [StopTimer, Element.cancel, tryLock, hg]
  · simp [StopTimer, Element.call, Element.cancel, tryLock, unlock, hg]

theorem stopTimer_spec_witness :
    StopTimer (some { gate := false, slot := some 3 })
      = (some { gate := true, slot := some 3 }, true, some 3)
    ∧ fires ({ gate := true, slot := some 3 } : Element) [Op.call, Op.call] = 0 := by
  have h := (stopTimer_spec.2.1 { gate := false, slot := some 3 }).2.1 rfl
  exact ⟨h.1, h.2 [Op.call, Op.call]⟩

/-- C5 (code evaluated at the failing input): `Element::init` on a recycled
entry whose gate was left held by its previous arming — the state of any
entry that was canceled before being released to the pool (`cancel` takes
the raw lock and never releases it) — leaves the gate HELD, because
`if (active_.try_lock()) active_.unlock();` skips the unlock exactly when
the flag is already set.  The slot back-reference is nulled as claimed, but
the gate is not reopened, contrary to the claim (and to the spec's pool
contract). -/
theorem init_keeps_gate_held :
    Element.init { gate := true, slot := some 0 }
      = { gate := true, slot := none } := rfl

/-- C10: whenever `Element::call` acquires the gate, it nulls the slot
back-reference before invoking the stored callback — the callback observes
the entry with the gate held and the slot reference already `none` — and
returns with the slot reference still `none` (the gate itself is released
again by the `unique_lock` destructor at scope exit); when acquisition
fails, `call` returns without invoking the callback and without modifying
the entry (in particular the slot back-reference). -/
theorem call_nulls_slot_before_cb (e : Element) :
    (e.gate = false →
        Element.call e
          = ({ gate := false, slot := none },
              some { gate := true, slot := none }))
    ∧ (e.gate = true → Element.call e = (e, none)) := by
  constructor
  · intro hg; simp [Element.call, tryLock, unlock, hg]
  · intro hg; simp [Element.call, tryLock, hg]

theorem call_nulls_slot_before_cb_witness :
    Element.call { gate := false, slot := some 2 }
      = ({ gate := false, slot := none }, some { gate := true, slot := none }) :=
  (call_nulls_slot_before_cb { gate := false, slot := some 2 }).1 rfl

/-! ### Wheel geometry constants (timer.h lines 99-103) -/

/-- `static const int s_gear1 = 4`: slot count of level 0. -/
def s_gear1 : Nat := 4

/-- `static const int s_gear1Shift = 2`: bit width of level 0's digit. -/
def s_gear1Shift : Nat := 2

/-- `static const int s_gear = 64`: slot count of every level ≥ 1. -/
def s_gear : Nat := 64

/-- `static const int s_gearShift = 6`: bit width of the digits of levels ≥ 1. -/
def s_gearShift : Nat := 6

/-- Size of level `l`'s slot array: `slots_[0]` has `s_gear1 = 4` slots,
every other level has `s_gear = 64` (timer.h lines 119-121). -/
def wheelSize (l : Nat) : Nat := if l = 0 then s_gear1 else s_gear

/-! ### Placement arithmetic of `Timer::StartTimer` (timer.h lines 136-155) -/

/-- The digit-extraction loop of `StartTimer` (timer.h lines 143-150):
`while (durValN > 0 && level + 1 < slots_.size()) { ++level; durVal1 = durValN; durValN = durVal1 >> s_gearShift; }`
followed by `offset = durVal1 & (s_gear - 1)`.  The loop increments `level`
every iteration, so it runs at most `numLevels - 1 - level` times;
`remaining` is that bound, making the recursion structural. -/
def placeLoop (level durVal1 : Nat) : Nat → Nat × Nat
  | 0 => (level, durVal1 &&& (s_gear - 1))
  | remaining + 1 =>
      let durValN := durVal1 >>> s_gearShift
      if durValN = 0 then (level, durVal1 &&& (s_gear - 1))
      else placeLoop (level + 1) durValN remaining

/-- Level and offset computed by `StartTimer` (timer.h lines 137-151) from
the level count and the absolute tick count `durVal`:
`durVal1 = durVal >> s_gear1Shift; if (durVal1 == 0) offset = durVal & (s_gear1 - 1); else { ++level; ... }`. -/
def startTimerLevelOffset (numLevels durVal : Nat) : Nat × Nat :=
  let durVal1 := durVal >>> s_gear1Shift
  if durVal1 = 0 then (0, durVal &&& (s_gear1 - 1))
  else placeLoop 1 durVal1 (numLevels - 2)

/-- Level and slot index chosen by `StartTimer` (timer.h lines 154-155):
`wheel[(points_[level] + offset) % wheel.size()]`; `points l` is level `l`'s
cursor `points_[l]`. -/
def startTimerPlace (numLevels : Nat) (points : Nat → Nat) (durVal : Nat) :
    Nat × Nat :=
  let lo := startTimerLevelOffset numLevels durVal
  (lo.1, (points lo.1 + lo.2) % wheelSize lo.1)

/-! ### The claim's description of placement (C3), for refinement

These definitions follow the words of the claim/spec, to be compared with
the source-derived `startTimerPlace`. -/

/-- Mixed-radix digit of an absolute tick count per the claim's words:
digit 0 is the 2-bit digit `ticks mod 4`; for `l ≥ 1`, digit `l` is the
`l`-th 6-bit digit of `rest = ticks / 4`. -/
def specDigit (ticks l : Nat) : Nat :=
  if l = 0 then ticks % 4 else ticks / 4 / 64 ^ (l - 1) % 64

/-- Placement level per the claim's words: level 0 when `rest = ticks / 4`
is zero; otherwise the level of the most significant nonzero 6-bit digit of
`rest`, i.e. `Nat.log 64 rest + 1`, clamped to the last constructed level
`numLevels - 1`. -/
def specLevel (numLevels ticks : Nat) : Nat :=
  if ticks / 4 = 0 then 0 else min (Nat.log 64 (ticks / 4) + 1) (numLevels - 1)

/-- Placement slot per the claim's words: level 0 uses
`(cursor_0 + digit_0) mod 4`, a level `l ≥ 1` uses `(cursor_l + digit_l) mod 64`. -/
def specPlace (numLevels : Nat) (points : Nat → Nat) (ticks : Nat) : Nat × Nat :=
  let l := specLevel numLevels ticks
  (l, (points l + specDigit ticks l) % (if l = 0 then 4 else 64))

theorem and_63_eq_mod (x : Nat) : x &&& 63 = x % 64 := by
  have h := Nat.and_pow_two_sub_one_eq_mod x 6
  norm_num at h
  exact h

theorem and_3_eq_mod (x : Nat) : x &&& 3 = x % 4 := by
  have h := Nat.and_pow_two_sub_one_eq_mod x 2
  norm_num at h
  exact h

theorem shiftRight_2 (x : Nat) : x >>> 2 = x / 4 := by
  rw [Nat.shiftRight_eq_div_pow]

theorem shiftRight_6 (x : Nat) : x >>> 6 = x / 64 := by
  rw [Nat.shiftRight_eq_div_pow]

theorem placeLoop_eq (remaining : Nat) :
    ∀ level d, 0 < d →
      placeLoop level d remaining
        = (level + min (Nat.log 64 d) remaining,
            d / 64 ^ min (Nat.log 64 d) remaining % 64) := by
  induction remaining with
  | zero =>
      intro level d _
      simp [placeLoop, and_63_eq_mod, s_gear]
  | succ r ih =>
      intro level d hd
      by_cases h : d >>> s_gearShift = 0
      · have h' : d / 64 = 0 := by
          rw [s_gearShift, shiftRight_6] at h
          exact h
        have hd64 : d < 64 := by omega
        have hlog : Nat.log 64 d = 0 :=
          Nat.log_eq_zero_iff.mpr (Or.inl hd64)
        simp [placeLoop, h, hlog, and_63_eq_mod, s_gear]
      · have hpos : 0 < d >>> s_gearShift := Nat.pos_of_ne_zero h
        have h64 : 64 ≤ d := by
          rw [s_gearShift, shiftRight_6] at hpos
          omega
        have hlogpos : 0 < Nat.log 64 d := Nat.log_pos (by norm_num) h64
        have hstep : placeLoop level d (r + 1)
            = placeLoop (level + 1) (d >>> s_gearShift) r := by
          simp [placeLoop, h]
        rw [hstep, ih (level + 1) _ hpos, s_gearShift, shiftRight_6,
          Nat.log_div_base]
        have hmin : min (Nat.log 64 d - 1) r + 1 = min (Nat.log 64 d) (r + 1) := by
          omega
        have hdiv : d / 64 / 64 ^ min (Nat.log 64 d - 1) r
            = d / 64 ^ (min (Nat.log 64 d - 1) r + 1) := by
          rw [Nat.div_div_eq_div_mul, pow_succ, mul_comm (64 ^ min (Nat.log 64 d - 1) r) 64]
        rw [Prod.mk.injEq]
        constructor
        · omega
        · rw [← hmin, hdiv]

/-- The most significant digit (at level `Nat.log 64 rest + 1`) of a nonzero
`rest` is nonzero. -/
theorem msd_digit_ne_zero (rest : Nat) (h : 0 < rest) :
    rest / 64 ^ Nat.log 64 rest % 64 ≠ 0 := by
  have h1 : 64 ^ Nat.log 64 rest ≤ rest := Nat.pow_log_le_self 64 (Nat.pos_iff_ne_zero.mp h)
  have h2 : rest < 64 ^ (Nat.log 64 rest + 1) := Nat.lt_pow_succ_log_self (by norm_num) rest
  have hlo : 1 ≤ rest / 64 ^ Nat.log 64 rest :=
    (Nat.one_le_div_iff (Nat.pos_pow_of_pos _ (by norm_num))).mpr h1
  have hhi : rest / 64 ^ Nat.log 64 rest < 64 := by
    rw [Nat.div_lt_iff_lt_mul (Nat.pos_pow_of_pos _ (by norm_num))]
    calc rest < 64 ^ (Nat.log 64 rest + 1) := h2
    _ = 64 ^ Nat.log 64 rest * 64 := by rw [pow_succ]
    _ = 64 * 64 ^ Nat.log 64 rest := by ring
  rw [Nat.mod_eq_of_lt hhi]
  omega

/-- Digits strictly above `Nat.log 64 rest + 1` are zero. -/
theorem digits_above_msd_zero (rest j : Nat) (h : Nat.log 64 rest < j) :
    rest / 64 ^ j % 64 = 0 := by
  have h2 : rest < 64 ^ (Nat.log 64 rest + 1) := Nat.lt_pow_succ_log_self (by norm_num) rest
  have h3 : rest < 64 ^ j :=
    lt_of_lt_of_le h2 (Nat.pow_le_pow_right (by norm_num) h)
  rw [Nat.div_eq_of_lt h3]

/-- C3: `StartTimer`'s placement equals mixed-radix decomposition as the
claim states it: with `digit0 = ticks mod 4` and `rest = ticks / 4`, if
`rest = 0` the entry goes to level 0 at slot `(cursor0 + digit0) mod 4`;
otherwise it goes to the level of the most significant nonzero 6-bit digit
of `rest` — clamped to the last constructed level — at slot
`(that level's cursor + that level's digit) mod 64`.  The second conjunct
checks that `specLevel` really is the most-significant-nonzero-digit level
(all digits above it vanish, and its own digit is nonzero unless clamping
occurred, in which case it is the last constructed level). -/
theorem startTimer_placement (numLevels : Nat) (points : Nat → Nat)
    (durVal : Nat) (h2 : 2 ≤ numLevels) :
    startTimerPlace numLevels points durVal = specPlace numLevels points durVal
    ∧ (durVal / 4 ≠ 0 →
        (Nat.log 64 (durVal / 4) + 1 ≤ numLevels - 1 →
            specDigit durVal (specLevel numLevels durVal) ≠ 0
            ∧ ∀ l, specLevel numLevels durVal < l → specDigit durVal l = 0)
        ∧ (numLevels - 1 < Nat.log 64 (durVal / 4) + 1 →
            specLevel numLevels durVal = numLevels - 1)) := by
  constructor
  · by_cases h0 : durVal / 4 = 0
    · have hsh : durVal >>> s_gear1Shift = 0 := by
        rw [s_gear1Shift, shiftRight_2]; exact h0
      simp [startTimerPlace, startTimerLevelOffset, specPlace, specLevel,
        specDigit, hsh, h0, and_3_eq_mod, wheelSize, s_gear1]
    · have hsh : durVal >>> s_gear1Shift = durVal / 4 := by
        rw [s_gear1Shift, shiftRight_2]
      have hrest : 0 < durVal / 4 := Nat.pos_of_ne_zero h0
      have hL : specLevel numLevels durVal
          = 1 + min (Nat.log 64 (durVal / 4)) (numLevels - 2) := by
        simp only [specLevel, if_neg h0]
        omega
      have hLpos : specLevel numLevels durVal ≠ 0 := by omega
      simp only [startTimerPlace, startTimerLevelOffset, hsh, if_neg h0,
        placeLoop_eq (numLevels - 2) 1 (durVal / 4) hrest, specPlace, hL]
      rw [Prod.mk.injEq]
      constructor
      · omega
      · have : specDigit durVal (1 + min (Nat.log 64 (durVal / 4)) (numLevels - 2))
            = durVal / 4 / 64 ^ min (Nat.log 64 (durVal / 4)) (numLevels - 2) % 64 := by
          simp [specDigit]
        rw [this]
        have hw : wheelSize (1 + min (Nat.log 64 (durVal / 4)) (numLevels - 2)) = 64 := by
          simp [wheelSize, s_gear]
        rw [hw]
        simp
  · intro h0
    have hrest : 0 < durVal / 4 := Nat.pos_of_ne_zero h0
    have hL : specLevel numLevels durVal
        = min (Nat.log 64 (durVal / 4) + 1) (numLevels - 1) := by
      simp [specLevel, h0]
    constructor
    · intro hnc
      have hLv : specLevel numLevels durVal = Nat.log 64 (durVal / 4) + 1 := by
        omega
      constructor
      · rw [hLv]
        have hd : specDigit durVal (Nat.log 64 (durVal / 4) + 1)
            = durVal / 4 / 64 ^ Nat.log 64 (durVal / 4) % 64 := by
          simp [specDigit]
        rw [hd]
        exact msd_digit_ne_zero _ hrest
      · intro l hl
        rw [hLv] at hl
        have hl1 : l ≠ 0 := by omega
        have hd : specDigit durVal l = durVal / 4 / 64 ^ (l - 1) % 64 := by
          simp [specDigit, hl1]
        rw [hd]
        exact digits_above_msd_zero _ _ (by omega)
    · intro hc
      omega

theorem startTimer_placement_witness :
    startTimerPlace 3 (fun _ => 0) 300 = specPlace 3 (fun _ => 0) 300
    ∧ startTimerPlace 3 (fun _ => 0) 300 = (2, 1) :=
  ⟨(startTimer_placement 3 (fun _ => 0) 300 (by norm_num)).1, by decide⟩

/-! ### The tick count of `StartTimer` and negative durations (C8) -/

/-- Tick count computed by `StartTimer` (timer.h line 136):
`uint64_t durVal = (FastSteadyClock::now() + dur - begin_).count() / precision_.count();`.
`delta` is the signed 64-bit value of `(now + dur - begin_).count()` and
`prec` that of `precision_.count()`.  C++ signed division truncates toward
zero (`Int.tdiv`) and the assignment to `uint64_t` reduces mod `2 ^ 64`. -/
def durValU64 (delta prec : Int) : Nat :=
  (Int.tdiv delta prec % (2 ^ 64 : Int)).toNat

/-- C8 counterexample: with precision count 1 and `now - begin_` worth 10
ticks, arming with `dur` worth −20 ticks computes tick count `2 ^ 64 − 10`
(the unclamped two's-complement value) and a coarsest-level placement — not
the next-tick count 11 and its placement.  `StartTimer` has no clamp for
negative durations. -/
theorem startTimer_negative_not_clamped :
    durValU64 (10 + -20) 1 = 18446744073709551606
    ∧ durValU64 (10 + 1) 1 = 11
    ∧ startTimerLevelOffset 5 (durValU64 (10 + -20) 1)
        ≠ startTimerLevelOffset 5 (durValU64 (10 + 1) 1) :=
  ⟨by decide, by decide, by decide⟩

/-- C8 amended: `StartTimer` applies no clamp to a negative duration: the
tick count is the truncated signed quotient reduced mod `2 ^ 64`.  Whenever
the computed quotient is negative (the deadline lies at least one whole tick
before the epoch; magnitude under `2 ^ 63` as for any value representable in
the int64 tick arithmetic), the tick count is `2 ^ 64 + q ≥ 2 ^ 63` — an
astronomically far placement, not the next tick. -/
theorem startTimer_negative_unclamped (delta prec : Int)
    (hq : Int.tdiv delta prec < 0) (hq2 : -(2 ^ 63) ≤ Int.tdiv delta prec) :
    durValU64 delta prec = (2 ^ 64 + Int.tdiv delta prec).toNat
    ∧ 2 ^ 63 ≤ durValU64 delta prec := by
  unfold durValU64
  omega

theorem startTimer_negative_unclamped_witness :
    durValU64 (-10) 1 = 18446744073709551606
    ∧ 2 ^ 63 ≤ durValU64 (-10) 1 := by
  have h := startTimer_negative_unclamped (-10) 1 (by decide) (by decide)
  exact ⟨by decide, h.2⟩

/-! ### The constructor's level count (C7), timer.h lines 106-122 -/

/-- The level-counting loop of the `Timer` constructor (lines 113-116):
`int level = 1; for (auto timeRange = precision * s_gear1; timeRange <= std::chrono::years(4); level++) timeRange *= s_gear;`.
The recursion is made structural on a fuel argument; fuel `fourYears + 1`
is never exhausted when the initial `timeRange` is positive (each iteration
grows `timeRange` by at least 1), see `ctorLoop_horizon`. -/
def ctorLoop (fourYears : Nat) : Nat → Nat → Nat → Nat
  | 0, level, _ => level
  | fuel + 1, level, timeRange =>
      if timeRange ≤ fourYears then
        ctorLoop fourYears fuel (level + 1) (timeRange * s_gear)
      else level

/-- Number of wheel levels chosen by the constructor for a precision worth
`prec` units, `fourYears` being `std::chrono::years(4)` in the same units. -/
def ctorNumLevels (prec fourYears : Nat) : Nat :=
  ctorLoop fourYears (fourYears + 1) 1 (prec * s_gear1)

/-- Slot counts per level built by the constructor (lines 117-121):
`slots_[0].resize(s_gear1)` and `slots_[i].resize(s_gear)` for `1 ≤ i`. -/
def ctorSlotSizes (level : Nat) : List Nat :=
  List.ofFn fun i : Fin level => wheelSize i

theorem ctorLoop_horizon (fourYears : Nat) :
    ∀ fuel level tr, 1 ≤ tr → fourYears + 1 ≤ fuel + tr →
      level ≤ ctorLoop fourYears fuel level tr
      ∧ fourYears < tr * s_gear ^ (ctorLoop fourYears fuel level tr - level) := by
  intro fuel
  induction fuel with
  | zero =>
      intro level tr h1 h2
      simp only [ctorLoop, Nat.sub_self, pow_zero, mul_one]
      omega
  | succ fuel ih =>
      intro level tr h1 h2
      by_cases h : tr ≤ fourYears
      · rw [ctorLoop, if_pos h]
        have hrec := ih (level + 1) (tr * s_gear)
          (by simp [s_gear]; omega)
          (by simp [s_gear]; omega)
        obtain ⟨hL, hH⟩ := hrec
        refine ⟨by omega, ?_⟩
        have hsub : ctorLoop fourYears fuel (level + 1) (tr * s_gear) - level
            = (ctorLoop fourYears fuel (level + 1) (tr * s_gear) - (level + 1)) + 1 := by
          omega
        rw [hsub, pow_succ]
        calc fourYears
            < tr * s_gear * s_gear ^ (ctorLoop fourYears fuel (level + 1) (tr * s_gear) - (level + 1)) := hH
          _ = tr * (s_gear ^ (ctorLoop fourYears fuel (level + 1) (tr * s_gear) - (level + 1)) * s_gear) := by ring
      · rw [ctorLoop, if_neg h]
        simp only [Nat.sub_self, pow_zero, mul_one]
        omega

/-- C7: for every positive precision the constructor builds level 0 with
exactly `s_gear1 = 4` slots and every level ≥ 1 with exactly `s_gear = 64`
slots, and the chosen level count `L ≥ 1` makes the total horizon
`prec * 4 * 64 ^ (L - 1)` ticks cover at least four years. -/
theorem ctor_levels (prec fourYears : Nat) (hp : 1 ≤ prec) :
    1 ≤ ctorNumLevels prec fourYears
    ∧ (ctorSlotSizes (ctorNumLevels prec fourYears)).length
        = ctorNumLevels prec fourYears
    ∧ (ctorSlotSizes (ctorNumLevels prec fourYears))[0]? = some 4
    ∧ (∀ i, 1 ≤ i → i < ctorNumLevels prec fourYears →
        (ctorSlotSizes (ctorNumLevels prec fourYears))[i]? = some 64)
    ∧ fourYears ≤ prec * 4 * 64 ^ (ctorNumLevels prec fourYears - 1) := by
  have h := ctorLoop_horizon fourYears (fourYears + 1) 1 (prec * s_gear1)
    (by simp [s_gear1]; omega) (Nat.le_add_right _ _)
  rw [show ctorLoop fourYears (fourYears + 1) 1 (prec * s_gear1)
      = ctorNumLevels prec fourYears from rfl] at h
  obtain ⟨hL, hH⟩ := h
  refine ⟨hL, by simp [ctorSlotSizes], ?_, ?_, ?_⟩
  · have h0 : 0 < ctorNumLevels prec fourYears := by omega
    simp [ctorSlotSizes, List.getElem?_ofFn, List.ofFnNthVal, h0, wheelSize, s_gear1]
  · intro i h1 h2
    have hi : i ≠ 0 := by omega
    simp [ctorSlotSizes, List.getElem?_ofFn, List.ofFnNthVal, h2, wheelSize, hi, s_gear]
  · have heq : prec * s_gear1 * s_gear ^ (ctorNumLevels prec fourYears - 1)
        = prec * 4 * 64 ^ (ctorNumLevels prec fourYears - 1) := by
      simp [s_gear1, s_gear]
    rw [heq] at hH
    omega

theorem ctor_levels_witness :
    ctorNumLevels 1 1000 = 3
    ∧ 1000 ≤ 1 * 4 * 64 ^ (ctorNumLevels 1 1000 - 1) :=
  ⟨by decide, (ctor_levels 1 1000 (by decide)).2.2.2.2⟩

/-! ### Driver-visit timing of a single entry (C6)

Modelled from the spec: the firing/cascade body of `ThreadRun` is missing
from the sources (the visible loop, timer.h lines 166-181, only computes
destination points; spec §9 notes the body "was not fully expressed in the
source" and directs implementing §4.4).  Per §4.4, with the driver pass
running every tick, each level's cursor tracks the corresponding digit of
the current absolute tick: level 0's cursor is `c mod 4`, level `l ≥ 1`'s
cursor is `c / (4 * 64 ^ (l-1)) mod 64`.  A level-0 slot `s` is drained by
the pass at the earliest tick `c' > c` with `c' ≡ s (mod 4)`; a level-`l`
slot `s` (`l ≥ 1`) is drained by the cascade that advances level `l`'s
cursor off `s`, i.e. at the earliest tick `c'` that is a positive multiple
`q * gran l` of the level's granularity with `q ≡ s + 1 (mod 64)` and
`c' > c`.  A still-valid cascaded entry is reinserted by the placement
algorithm of `StartTimer` (§4.2) applied to its remaining ticks. -/

/-- Slot width (granularity) of level `l` in ticks: a level-0 slot is one
tick, a level-`l` slot (`l ≥ 1`) is `4 * 64 ^ (l-1)` ticks. -/
def gran (l : Nat) : Nat := if l = 0 then 1 else 4 * 64 ^ (l - 1)

/-- Cursor of level `l` after the driver pass at absolute tick `c`. -/
def cursorAt (l c : Nat) : Nat := if l = 0 then c % 4 else c / gran l % 64

/-- Least value strictly greater than `c` congruent to `t` mod `m`. -/
def nextCongr (m t c : Nat) : Nat :=
  c + ((t + m - (c + 1) % m) % m + 1)

/-- Earliest tick strictly after `c` at which level-`l` slot `s` is drained
by the (spec-modelled) driver. -/
def nextDrain (l s c : Nat) : Nat :=
  if l = 0 then nextCongr 4 s c
  else gran l * nextCongr 64 (s + 1) (c / gran l)

/-- Level and slot the placement algorithm of `StartTimer` assigns to tick
count `v` when every cursor is aligned with absolute tick `c`. -/
def placeAt (numLevels c v : Nat) : Nat × Nat :=
  startTimerPlace numLevels (fun l => cursorAt l c) v

theorem nextCongr_gt (m t c : Nat) : c < nextCongr m t c := by
  unfold nextCongr
  omega

theorem nextCongr_le (m t c : Nat) (hm : 0 < m) : nextCongr m t c ≤ c + m := by
  unfold nextCongr
  have h := Nat.mod_lt (t + m - (c + 1) % m) hm
  omega

theorem nextCongr_mod (m t c : Nat) (hm : 0 < m) :
    nextCongr m t c % m = t % m := by
  unfold nextCongr
  have h1 : c + ((t + m - (c + 1) % m) % m + 1)
      = (c + 1) + (t + m - (c + 1) % m) % m := by omega
  rw [h1, Nat.add_mod_mod]
  have hv : (c + 1) % m < m := Nat.mod_lt _ hm
  obtain ⟨q, hq⟩ : ∃ q, c + 1 = m * q + (c + 1) % m :=
    ⟨(c + 1) / m, (Nat.div_add_mod (c + 1) m).symm⟩
  have h2 : (c + 1) + (t + m - (c + 1) % m) = m * q + (t + m) := by omega
  rw [h2, Nat.mul_add_mod, Nat.add_mod_right]

theorem nextCongr_eq_of (m t c e : Nat) (hm : 0 < m) (h1 : 1 ≤ e) (h2 : e ≤ m)
    (h3 : (c + e) % m = t % m) : nextCongr m t c = c + e := by
  have hgt : c < nextCongr m t c := nextCongr_gt m t c
  have hle : nextCongr m t c ≤ c + m := nextCongr_le m t c hm
  have hmod : nextCongr m t c % m = t % m := nextCongr_mod m t c hm
  obtain ⟨e', he'1, he'2, he'⟩ :
      ∃ e', 1 ≤ e' ∧ e' ≤ m ∧ nextCongr m t c = c + e' :=
    ⟨nextCongr m t c - c, by omega, by omega, by omega⟩
  rw [he'] at hmod
  have hcong : e' % m = e % m :=
    Nat.ModEq.add_left_cancel' c (hmod.trans h3.symm)
  have hs1 : (e' - 1) % m = (e - 1) % m := by
    have ha : e' - 1 + 1 = e' := by omega
    have hb : e - 1 + 1 = e := by omega
    refine Nat.ModEq.add_right_cancel' 1 ?_
    unfold Nat.ModEq
    rw [ha, hb]
    exact hcong
  rw [Nat.mod_eq_of_lt (by omega), Nat.mod_eq_of_lt (by omega)] at hs1
  omega

theorem gran_pos (l : Nat) : 0 < gran l := by
  unfold gran
  split
  · omega
  · positivity

theorem nextDrain_gt (l s c : Nat) : c < nextDrain l s c := by
  unfold nextDrain
  split
  · exact nextCongr_gt 4 s c
  · have h1 : c / gran l + 1 ≤ nextCongr 64 (s + 1) (c / gran l) :=
      nextCongr_gt 64 (s + 1) (c / gran l)
    have h2 : c % gran l < gran l := Nat.mod_lt _ (gran_pos l)
    have h3 : gran l * (c / gran l) + c % gran l = c := Nat.div_add_mod c (gran l)
    calc c < gran l * (c / gran l) + gran l := by omega
      _ = gran l * (c / gran l + 1) := by ring
      _ ≤ gran l * nextCongr 64 (s + 1) (c / gran l) :=
          Nat.mul_le_mul_left _ h1

theorem placeAt_small (n c v : Nat) (hv : v < 4) :
    placeAt n c v = (0, (c % 4 + v) % 4) := by
  have hsh : v >>> s_gear1Shift = 0 := by
    rw [s_gear1Shift, shiftRight_2]
    omega
  simp [placeAt, startTimerPlace, startTimerLevelOffset, hsh,
    wheelSize, cursorAt, s_gear1]
  rw [and_3_eq_mod]
  omega

theorem placeAt_coarse (n c v : Nat) (hv : 4 ≤ v) :
    placeAt n c v
      = (1 + min (Nat.log 64 (v / 4)) (n - 2),
          (c / gran (1 + min (Nat.log 64 (v / 4)) (n - 2)) % 64
            + v / 4 / 64 ^ min (Nat.log 64 (v / 4)) (n - 2) % 64) % 64) := by
  have hsh : v >>> s_gear1Shift = v / 4 := by rw [s_gear1Shift, shiftRight_2]
  have hpos : 0 < v / 4 := by omega
  have hne : ¬ (v / 4 = 0) := by omega
  simp only [placeAt, startTimerPlace, startTimerLevelOffset, hsh, if_neg hne,
    placeLoop_eq (n - 2) 1 (v / 4) hpos]
  have hw : wheelSize (1 + min (Nat.log 64 (v / 4)) (n - 2)) = 64 := by
    simp [wheelSize, s_gear]
  have hc : cursorAt (1 + min (Nat.log 64 (v / 4)) (n - 2)) c
      = c / gran (1 + min (Nat.log 64 (v / 4)) (n - 2)) % 64 := by
    simp [cursorAt]
  rw [hw, hc]

theorem placeAt_fst_ne_zero_imp (n c v : Nat)
    (h : (placeAt n c v).1 ≠ 0) : 4 ≤ v := by
  by_contra hlt
  exact h (by rw [placeAt_small n c v (by omega)])

/-- Firing tick of an entry that at tick `c` is reinserted with `r` ticks
remaining.  Modelled from the spec (§4.4): a cascaded entry still valid is
reinserted by the placement algorithm of §4.2 applied to its remaining
ticks; an entry reaching level 0 fires when its slot is drained. -/
def fireFrom (numLevels c r : Nat) : Nat :=
  if (placeAt numLevels c r).1 = 0 then
    nextDrain 0 (placeAt numLevels c r).2 c
  else
    fireFrom numLevels
      (nextDrain (placeAt numLevels c r).1 (placeAt numLevels c r).2 c)
      (c + r - nextDrain (placeAt numLevels c r).1 (placeAt numLevels c r).2 c)
termination_by r
decreasing_by
  rename_i h
  have h4 : 4 ≤ r := placeAt_fst_ne_zero_imp numLevels c r h
  have hgt := nextDrain_gt (placeAt numLevels c r).1 (placeAt numLevels c r).2 c
  omega

/-- Firing tick of an entry armed at tick `c0` with absolute deadline tick
`T = durVal` never canceled: placed by the source's `StartTimer` placement
and then drained (and, from a coarse level, cascaded with remaining ticks)
by the spec-modelled driver. -/
def fireTickOfArm (numLevels c0 T : Nat) : Nat :=
  if (placeAt numLevels c0 T).1 = 0 then
    nextDrain 0 (placeAt numLevels c0 T).2 c0
  else
    fireFrom numLevels
      (nextDrain (placeAt numLevels c0 T).1 (placeAt numLevels c0 T).2 c0)
      (T - nextDrain (placeAt numLevels c0 T).1 (placeAt numLevels c0 T).2 c0)

theorem fireFrom_ge (numLevels : Nat) (r : Nat) :
    ∀ c, c + r ≤ fireFrom numLevels c r := by
  induction r using Nat.strong_induction_on with
  | _ r ih =>
      intro c
      rw [fireFrom]
      split
      · rename_i h0
        have hr4 : r < 4 := by
          by_contra hge
          rw [placeAt_coarse numLevels c r (by omega)] at h0
          simp at h0
        rw [placeAt_small numLevels c r hr4]
        unfold nextDrain
        rw [if_pos rfl]
        unfold nextCongr
        omega
      · rename_i h0
        have h4 : 4 ≤ r := placeAt_fst_ne_zero_imp numLevels c r h0
        have hgt := nextDrain_gt (placeAt numLevels c r).1 (placeAt numLevels c r).2 c
        have hrec := ih (c + r - nextDrain (placeAt numLevels c r).1 (placeAt numLevels c r).2 c)
          (by omega)
          (nextDrain (placeAt numLevels c r).1 (placeAt numLevels c r).2 c)
        omega

theorem coarse_drain_le_aux (c r L G m : Nat) (hL0 : L ≠ 0)
    (hgr : gran L = G) (hm1 : 1 ≤ m) (hmlt : m < 64) (hGm : G * m ≤ r) :
    nextDrain L ((c / G % 64 + m % 64) % 64) c ≤ c + r + G := by
  have hnd : nextDrain L ((c / G % 64 + m % 64) % 64) c
      = gran L * nextCongr 64 ((c / G % 64 + m % 64) % 64 + 1) (c / gran L) := by
    unfold nextDrain
    rw [if_neg hL0]
  rw [hnd, hgr]
  have hcongr : nextCongr 64 ((c / G % 64 + m % 64) % 64 + 1) (c / G)
      = c / G + (m + 1) := by
    apply nextCongr_eq_of 64 _ _ _ (by norm_num) (by omega) (by omega)
    omega
  rw [hcongr]
  have hdistrib : G * (c / G + (m + 1)) = G * (c / G) + G * m + G := by ring
  have hb1 : G * (c / G) ≤ c := by
    rw [mul_comm]
    exact Nat.div_mul_le_self c _
  omega

theorem cascade_drain_le (numLevels c r : Nat) (h4 : 4 ≤ r)
    (hnc : Nat.log 64 (r / 4) + 1 ≤ numLevels - 1) :
    nextDrain (placeAt numLevels c r).1 (placeAt numLevels c r).2 c
      ≤ c + r + gran (placeAt numLevels c r).1 := by
  have hmin : min (Nat.log 64 (r / 4)) (numLevels - 2) = Nat.log 64 (r / 4) :=
    min_eq_left (by omega)
  have hplace : placeAt numLevels c r
      = (1 + Nat.log 64 (r / 4),
          (c / gran (1 + Nat.log 64 (r / 4)) % 64
            + r / 4 / 64 ^ Nat.log 64 (r / 4) % 64) % 64) := by
    rw [placeAt_coarse numLevels c r h4, hmin]
  rw [hplace]
  have hG : gran (1 + Nat.log 64 (r / 4)) = 4 * 64 ^ Nat.log 64 (r / 4) := by
    simp [gran]
  have hm1 : 1 ≤ r / 4 / 64 ^ Nat.log 64 (r / 4) :=
    (Nat.one_le_div_iff (pow_pos (by norm_num) _)).mpr
      (Nat.pow_log_le_self 64 (by omega))
  have hmlt : r / 4 / 64 ^ Nat.log 64 (r / 4) < 64 := by
    rw [Nat.div_lt_iff_lt_mul (pow_pos (by norm_num) _)]
    calc r / 4 < 64 ^ (Nat.log 64 (r / 4) + 1) :=
          Nat.lt_pow_succ_log_self (by norm_num) _
      _ = 64 * 64 ^ Nat.log 64 (r / 4) := by ring
  have hGm : gran (1 + Nat.log 64 (r / 4)) * (r / 4 / 64 ^ Nat.log 64 (r / 4)) ≤ r := by
    rw [hG]
    have h1 : 64 ^ Nat.log 64 (r / 4) * (r / 4 / 64 ^ Nat.log 64 (r / 4)) ≤ r / 4 := by
      rw [mul_comm]
      exact Nat.div_mul_le_self (r / 4) _
    calc 4 * 64 ^ Nat.log 64 (r / 4) * (r / 4 / 64 ^ Nat.log 64 (r / 4))
        = 4 * (64 ^ Nat.log 64 (r / 4) * (r / 4 / 64 ^ Nat.log 64 (r / 4))) := by ring
      _ ≤ 4 * (r / 4) := Nat.mul_le_mul_left 4 h1
      _ ≤ r := by omega
  exact coarse_drain_le_aux c r (1 + Nat.log 64 (r / 4))
    (gran (1 + Nat.log 64 (r / 4))) (r / 4 / 64 ^ Nat.log 64 (r / 4))
    (by omega) rfl hm1 hmlt hGm

/-- C6: under the spec-modelled driver, a timer is never fired before its
deadline tick.  (1) An entry armed at tick `c0` with absolute deadline tick
`T` (`durVal` of `StartTimer`) fires at a tick `≥ T`; (2) an entry a cascade
reinserts at tick `c` with `r` remaining ticks fires at a tick `≥ c + r`, so
cascade relocation never causes early firing; (3) a coarse placement within
the horizon (level `1 + log₆₄(r/4)` when that level exists) is drained at a
tick at most `gran l` — the granularity of the level cascaded through —
after its deadline `c + r`. -/
theorem timer_never_early (numLevels : Nat) :
    (∀ c0 T, T ≤ fireTickOfArm numLevels c0 T)
    ∧ (∀ c r, c + r ≤ fireFrom numLevels c r)
    ∧ (∀ c r, 4 ≤ r → Nat.log 64 (r / 4) + 1 ≤ numLevels - 1 →
        c < nextDrain (placeAt numLevels c r).1 (placeAt numLevels c r).2 c
        ∧ nextDrain (placeAt numLevels c r).1 (placeAt numLevels c r).2 c
            ≤ c + r + gran (placeAt numLevels c r).1) := by
  refine ⟨?_, fun c r => fireFrom_ge numLevels r c, fun c r h4 hnc =>
    ⟨nextDrain_gt _ _ _, cascade_drain_le numLevels c r h4 hnc⟩⟩
  intro c0 T
  unfold fireTickOfArm
  split
  · rename_i h0
    have hT4 : T < 4 := by
      by_contra hge
      rw [placeAt_coarse numLevels c0 T (by omega)] at h0
      simp at h0
    rw [placeAt_small numLevels c0 T hT4]
    unfold nextDrain
    rw [if_pos rfl]
    unfold nextCongr
    omega
  · rename_i h0
    have hge := fireFrom_ge numLevels
      (T - nextDrain (placeAt numLevels c0 T).1 (placeAt numLevels c0 T).2 c0)
      (nextDrain (placeAt numLevels c0 T).1 (placeAt numLevels c0 T).2 c0)
    have hgt := nextDrain_gt (placeAt numLevels c0 T).1 (placeAt numLevels c0 T).2 c0
    omega

theorem timer_never_early_witness :
    3 ≤ fireTickOfArm 3 5 3
    ∧ nextDrain (placeAt 3 0 4).1 (placeAt 3 0 4).2 0
        ≤ 0 + 4 + gran (placeAt 3 0 4).1 :=
  ⟨(timer_never_early 3).1 5 3,
    ((timer_never_early 3).2.2 0 4 (by decide)
      (by norm_num [Nat.log_one_right])).2⟩

/-! ### Slot-linking invariant of one entry (C9)

`ts_queue.h` (the `TSQueue` slot primitive) is not among the sources, so the
effect of `push`/`erase` on the back-reference is modelled from the spec
(§3: "`slotRef`: … Updated by whoever inserts or removes the entry from a
Slot"): pushing an entry into a slot records that slot in `slot_`; erasing
it clears `slot_`.  Arming draws the entry from the pool; per the spec's
lifecycle (§3) an entry reaches the pool only after being unlinked from its
slot, which is the guard of the `arm` step. -/

/-- State of one entry for the linking invariant: its gate, its back
reference `slot_`, and the list of slots that actually contain it (a slot
may in principle appear several times; the invariant rules that out). -/
structure LinkState where
  gate : Bool
  slotRef : Option Nat
  links : List Nat
  deriving Repr, DecidableEq

/-- One step of the operations named by the claim, acting on one entry:

* `arm s` — `StartTimer`: `Element::init` followed by the `push` into the
  chosen slot `s` (timer.h lines 134-135 and 155); the entry comes from the
  pool, hence unlinked (guard `st.links = []`);
* `fire` — `Element::call` (drained by the driver, gate decides);
* `cancel` — `Element::cancel`: on winning the gate it erases the entry by
  identity from the slot named by `slot_` (if any). -/
inductive LinkStep : LinkState → LinkState → Prop where
  | arm (st : LinkState) (s : Nat) (h : st.links = []) :
      LinkStep st
        { gate := (Element.init { gate := st.gate, slot := st.slotRef }).gate,
          slotRef := some s,
          links := st.links ++ [s] }
  | fire (st : LinkState) :
      LinkStep st
        { gate := (Element.call { gate := st.gate, slot := st.slotRef }).1.gate,
          slotRef := (Element.call { gate := st.gate, slot := st.slotRef }).1.slot,
          links := st.links }
  | cancel (st : LinkState) :
      LinkStep st
        { gate := (Element.cancel { gate := st.gate, slot := st.slotRef }).1.gate,
          slotRef :=
            if (Element.cancel { gate := st.gate, slot := st.slotRef }).2.1 then none
            else st.slotRef,
          links :=
            match (Element.cancel { gate := st.gate, slot := st.slotRef }).2.2 with
            | some s => st.links.erase s
            | none => st.links }

/-- The linking invariant of the claim: the entry occupies at most one slot,
and `slot_` is null or names exactly the slot containing it. -/
def linkInv (st : LinkState) : Prop :=
  st.links.length ≤ 1 ∧ ∀ s, st.slotRef = some s → st.links = [s]

theorem linkInv_step (st st' : LinkState) (hinv : linkInv st)
    (hstep : LinkStep st st') : linkInv st' := by
  obtain ⟨hlen, href⟩ := hinv
  cases hstep with
  | arm s h =>
      refine ⟨by simp [h], fun s' hs' => ?_⟩
      simp at hs'
      simp [h, hs']
  | fire =>
      cases hg : st.gate with
      | true =>
          refine ⟨?_, fun s hs => ?_⟩
          · simpa [Element.call, tryLock, hg] using hlen
          · simp [Element.call, tryLock, hg] at hs ⊢
            exact href s (by rw [hs])
      | false =>
          refine ⟨?_, fun s hs => ?_⟩
          · simpa [Element.call, tryLock, hg] using hlen
          · simp [Element.call, tryLock, hg] at hs
  | cancel =>
      cases hg : st.gate with
      | true =>
          refine ⟨?_, fun s hs => ?_⟩
          · simpa [Element.cancel, tryLock, hg] using hlen
          · simp [Element.cancel, tryLock, hg] at hs ⊢
            exact href s (by rw [hs])
      | false =>
          cases hr : st.slotRef with
          | none =>
              refine ⟨?_, fun s hs => ?_⟩
              · simpa [Element.cancel, tryLock, hg, hr] using hlen
              · simp [Element.cancel, tryLock, hg, hr] at hs
          | some s0 =>
              have hlink : st.links = [s0] := href s0 hr
              refine ⟨?_, fun s hs => ?_⟩
              · simp [Element.cancel, tryLock, hg, hr, hlink,
                  List.erase_cons_head]
              · simp [Element.cancel, tryLock, hg, hr] at hs

/-- C9: from a pool-fresh entry (null back-reference, linked nowhere), every
state reachable by the operations `init`+push (arming), `call` (fire) and
`cancel` keeps the entry in at most one slot, with the back-reference null
or naming exactly the slot containing it. -/
theorem link_invariant (st st' : LinkState)
    (h0 : st.slotRef = none ∧ st.links = [])
    (hsteps : Relation.ReflTransGen LinkStep st st') :
    st'.links.length ≤ 1 ∧ ∀ s, st'.slotRef = some s → st'.links = [s] := by
  have hinv : linkInv st := by
    refine ⟨by simp [h0.2], fun s hs => ?_⟩
    rw [h0.1] at hs
    cases hs
  have : linkInv st' := by
    induction hsteps with
    | refl => exact hinv
    | tail _ hstep ih => exact linkInv_step _ _ ih hstep
  exact this

theorem link_invariant_witness :
    ([2] : List Nat).length ≤ 1
    ∧ ∀ s, (some 2 : Option Nat) = some s → [2] = [s] := by
  have h := link_invariant ⟨false, none, []⟩ ⟨false, some 2, [2]⟩ ⟨rfl, rfl⟩
    (Relation.ReflTransGen.single (LinkStep.arm ⟨false, none, []⟩ 2 rfl))
  exact h

/-! ### The driver pass (C2)

The destination-point computation is embedded from the source (`ThreadRun`,
timer.h lines 168-179).  The rest of the pass — cursor advance, drain, fire,
cascade, `last_ = now` — is modelled from the spec (§4.4): the visible loop
body in the source stops after computing the destination points, and spec §9
states the firing/cascade body "was not fully expressed in the source" and
directs implementing §4.4. -/

/-- The digit loop of `ThreadRun` (timer.h lines 176-179):
`for (i = 1; i < destPoints.size(); ++i) { destPoints[i] = durVal & (s_gear - 1); durVal = durVal >> s_gearShift; }`. -/
def destPointsLoop (durVal : Nat) : Nat → List Nat
  | 0 => []
  | n + 1 => (durVal &&& (s_gear - 1)) :: destPointsLoop (durVal >>> s_gearShift) n

/-- Destination points computed by `ThreadRun` (timer.h lines 172-179):
`destPoints[0] = durVal & (s_gear1 - 1); durVal >>= s_gear1Shift;` then the
6-bit digit loop for the remaining `numLevels - 1` levels. -/
def destPoints (numLevels durVal : Nat) : List Nat :=
  (durVal &&& (s_gear1 - 1)) :: destPointsLoop (durVal >>> s_gear1Shift) (numLevels - 1)

/-- An armed entry as the driver model sees it: the gate and the absolute
deadline tick.  (Callback and refcount are abstracted; the gate decides
firing exactly as in `Element::call` / `Element::isValid`.) -/
structure DEntry where
  gate : Bool
  deadline : Nat
  id : Nat
  deriving Repr, DecidableEq

/-- One level of the wheel: its cursor `points_[l]` and its slots. -/
structure DLevel where
  cursor : Nat
  slots : List (List DEntry)
  deriving Repr, DecidableEq

/-- Wheel state for the driver model: the levels and `last_`. -/
structure WheelState where
  levels : List DLevel
  last : Nat
  deriving Repr, DecidableEq

/-- Modelled from the spec (§4.4 step 2): advance a cursor `n` single steps
through `slots` (`cursor = (cursor + 1) mod size` each step), emptying the
slot reached at each step and collecting its entries in order.  Returns the
emptied slots, the final cursor, and the drained entries. -/
def drainSteps (slots : List (List DEntry)) (cursor : Nat) :
    Nat → List (List DEntry) × Nat × List DEntry
  | 0 => (slots, cursor, [])
  | n + 1 =>
      let c' := (cursor + 1) % slots.length
      let drained := (slots.get? c').getD []
      let rest := drainSteps (slots.set c' []) c' n
      (rest.1, rest.2.1, drained ++ rest.2.2)

/-- Modelled from the spec (§4.4 step 2): attempt `Element::call` on each
drained entry — acquiring the gate fires the callback, a held gate releases
the entry unfired.  Returns (fired, released-unfired). -/
def fireDrained (es : List DEntry) : List DEntry × List DEntry :=
  (es.filter fun e => (tryLock e.gate).1, es.filter fun e => !(tryLock e.gate).1)

/-- Cursor of level `l` in a level list (0 when absent). -/
def levelCursor (levels : List DLevel) (l : Nat) : Nat :=
  ((levels.get? l).map DLevel.cursor).getD 0

/-- Modelled from the spec (§4.4 step 3): reinsert a still-valid cascaded
entry: recompute its remaining ticks from `now` and place it with the
placement algorithm of `StartTimer` (§4.2) against the current cursors. -/
def reinsert (numLevels now : Nat) (levels : List DLevel) (e : DEntry) :
    List DLevel :=
  let p := startTimerPlace numLevels (levelCursor levels) (e.deadline - now)
  match levels.get? p.1 with
  | none => levels
  | some lv =>
      levels.set p.1
        { lv with slots := lv.slots.set p.2 (((lv.slots.get? p.2).getD []) ++ [e]) }

/-- Modelled from the spec (§4.4 step 3): cascade level `i` into the levels
below: drain the slot at level `i`'s current cursor; entries whose gate is
held (`isValid()` false) are dropped; the rest are reinserted by remaining
ticks; then level `i`'s cursor advances by one.  Returns the new levels, the
dropped entries, and whether level `i`'s cursor completed a revolution. -/
def cascadeStep (numLevels now i : Nat) (levels : List DLevel) :
    List DLevel × List DEntry × Bool :=
  match levels.get? i with
  | none => (levels, [], false)
  | some lv =>
      let drained := (lv.slots.get? lv.cursor).getD []
      let cleared := levels.set i { lv with slots := lv.slots.set lv.cursor [] }
      let valid := drained.filter fun e => (tryLock e.gate).1
      let dropped := drained.filter fun e => !(tryLock e.gate).1
      let inserted := valid.foldl (reinsert numLevels now) cleared
      match inserted.get? i with
      | none => (inserted, dropped, false)
      | some lv2 =>
          (inserted.set i { lv2 with cursor := (lv2.cursor + 1) % lv2.slots.length },
            dropped, lv2.cursor + 1 = lv2.slots.length)

/-- Modelled from the spec (§4.4 step 3): run cascades from level `i`
upward, continuing while each cursor completes a revolution (fuel bounds the
chain at the level count). -/
def cascadeChain (numLevels now : Nat) : Nat → Nat → List DLevel → List DLevel × List DEntry
  | _, 0, levels => (levels, [])
  | i, fuel + 1, levels =>
      let r := cascadeStep numLevels now i levels
      if r.2.2 then
        let rest := cascadeChain numLevels now (i + 1) fuel r.1
        (rest.1, r.2.1 ++ rest.2)
      else (r.1, r.2.1)

/-- Result of one driver pass: the new wheel state and the classification of
every entry the pass handled. -/
structure PassResult where
  state : WheelState
  drained0 : List DEntry
  fired : List DEntry
  releasedUnfired : List DEntry
  dropped : List DEntry
  deriving Repr, DecidableEq

/-- One pass of the driver loop.  The absolute tick count and the
destination points are computed as the source does (timer.h lines 170-179,
with `now - epoch ≥ 0` for a monotonic clock so the uint64 conversion is the
identity); the advance/fire/cascade body and the final `last_ = now` are
modelled from the spec (§4.4 steps 2-4). -/
def threadRunPass (numLevels prec epoch now : Nat) (st : WheelState) :
    PassResult :=
  let durVal := (now - epoch) / prec
  let dp0 := durVal &&& (s_gear1 - 1)
  match st.levels.get? 0 with
  | none =>
      { state := { levels := st.levels, last := now }, drained0 := [],
        fired := [], releasedUnfired := [], dropped := [] }
  | some lv0 =>
      let steps := (dp0 + 4 - lv0.cursor) % 4
      let d0 := drainSteps lv0.slots lv0.cursor steps
      let levels1 := st.levels.set 0 { cursor := d0.2.1, slots := d0.1 }
      let f := fireDrained d0.2.2
      let casc :=
        if 4 ≤ lv0.cursor + steps then
          cascadeChain numLevels now 1 (numLevels - 1) levels1
        else (levels1, [])
      { state := { levels := casc.1, last := now }, drained0 := d0.2.2,
        fired := f.1, releasedUnfired := f.2, dropped := casc.2 }

theorem destPointsLoop_get (n : Nat) : ∀ w j, j < n →
    (destPointsLoop w n).get? j = some (w / 64 ^ j % 64) := by
  induction n with
  | zero => intro w j hj; omega
  | succ n ih =>
      intro w j hj
      cases j with
      | zero => simp [destPointsLoop, and_63_eq_mod, s_gear]
      | succ j =>
          rw [destPointsLoop, List.get?_cons_succ,
            ih (w >>> s_gearShift) j (by omega), s_gearShift, shiftRight_6,
            Nat.div_div_eq_div_mul, ← pow_succ']

theorem destPoints_eq_digits (numLevels durVal i : Nat) (hi : i < numLevels) :
    (destPoints numLevels durVal).get? i = some (specDigit durVal i) := by
  cases i with
  | zero => simp [destPoints, specDigit, and_3_eq_mod, s_gear1]
  | succ i =>
      rw [destPoints, List.get?_cons_succ,
        destPointsLoop_get (numLevels - 1) (durVal >>> s_gear1Shift) i (by omega),
        s_gear1Shift, shiftRight_2]
      simp [specDigit]

theorem drainSteps_length (n : Nat) : ∀ slots cursor,
    ((drainSteps slots cursor n).1).length = slots.length := by
  induction n with
  | zero => intro slots cursor; rfl
  | succ n ih =>
      intro slots cursor
      simp only [drainSteps]
      rw [ih]
      exact List.length_set slots _ []

theorem drainSteps_cursor (n : Nat) : ∀ slots cursor, List.length slots = 4 →
    cursor < 4 → (drainSteps slots cursor n).2.1 = (cursor + n) % 4 := by
  induction n with
  | zero =>
      intro slots cursor h4 hc
      simp only [drainSteps]
      omega
  | succ n ih =>
      intro slots cursor h4 hc
      simp only [drainSteps]
      rw [h4, ih (slots.set ((cursor + 1) % 4) []) ((cursor + 1) % 4)
        (by rw [List.length_set]; exact h4) (by omega)]
      omega

theorem cursor_dest_arith (cur D : Nat) (hc : cur < 4) :
    (cur + (D % 4 + 4 - cur) % 4) % 4 = D % 4 := by omega

theorem reinsert_cursor (numLevels now : Nat) (levels : List DLevel)
    (e : DEntry) (l : Nat) :
    ((reinsert numLevels now levels e).get? l).map DLevel.cursor
      = (levels.get? l).map DLevel.cursor := by
  cases hp : levels.get?
      (startTimerPlace numLevels (levelCursor levels) (e.deadline - now)).1 with
  | none => simp only [reinsert, hp]
  | some lv =>
      simp only [reinsert, hp]
      by_cases hl :
          (startTimerPlace numLevels (levelCursor levels) (e.deadline - now)).1 = l
      · rw [← hl, List.get?_set_eq, hp]
        rfl
      · rw [List.get?_set_ne _ _ hl]

theorem foldl_reinsert_cursor (numLevels now : Nat) (es : List DEntry) :
    ∀ levels l, ((es.foldl (reinsert numLevels now) levels).get? l).map DLevel.cursor
      = (levels.get? l).map DLevel.cursor := by
  induction es with
  | nil => intro levels l; rfl
  | cons e es ih =>
      intro levels l
      rw [List.foldl_cons, ih, reinsert_cursor]

theorem cascadeStep_cursor_lt (numLevels now i : Nat) (levels : List DLevel)
    (l : Nat) (hl : l < i) :
    ((cascadeStep numLevels now i levels).1.get? l).map DLevel.cursor
      = (levels.get? l).map DLevel.cursor := by
  cases h : levels.get? i with
  | none => simp only [cascadeStep, h]
  | some lv =>
      simp only [cascadeStep, h]
      cases h2 : (((lv.slots.get? lv.cursor).getD []).filter
            (fun e => (tryLock e.gate).1)).foldl (reinsert numLevels now)
          (levels.set i { lv with slots := lv.slots.set lv.cursor [] }) |>.get? i with
      | none =>
          simp only [h2]
          rw [foldl_reinsert_cursor, List.get?_set_ne _ _ (by omega)]
      | some lv2 =>
          simp only [h2]
          rw [List.get?_set_ne _ _ (by omega), foldl_reinsert_cursor,
            List.get?_set_ne _ _ (by omega)]

theorem cascadeChain_cursor0 (numLevels now fuel : Nat) :
    ∀ i levels, 1 ≤ i →
      ((cascadeChain numLevels now i fuel levels).1.get? 0).map DLevel.cursor
        = (levels.get? 0).map DLevel.cursor := by
  induction fuel with
  | zero => intro i levels _; rfl
  | succ fuel ih =>
      intro i levels hi
      simp only [cascadeChain]
      split
      · rw [ih (i + 1) _ (by omega), cascadeStep_cursor_lt _ _ _ _ _ (by omega)]
      · rw [cascadeStep_cursor_lt _ _ _ _ _ (by omega)]

theorem tryLock_fst (g : Bool) : (tryLock g).1 = !g := by
  cases g <;> rfl

theorem cascadeStep_dropped_gate (numLevels now i : Nat) (levels : List DLevel)
    (e : DEntry) (he : e ∈ (cascadeStep numLevels now i levels).2.1) :
    e.gate = true := by
  cases h : levels.get? i with
  | none => simp only [cascadeStep, h] at he; cases he
  | some lv =>
      simp only [cascadeStep, h] at he
      have hmem : e ∈ ((lv.slots.get? lv.cursor).getD []).filter
          (fun e => !(tryLock e.gate).1) := by
        cases h2 : (((lv.slots.get? lv.cursor).getD []).filter
              (fun e => (tryLock e.gate).1)).foldl (reinsert numLevels now)
            (levels.set i { lv with slots := lv.slots.set lv.cursor [] }) |>.get? i with
        | none => simp only [h2] at he; exact he
        | some lv2 => simp only [h2] at he; exact he
      have := (List.mem_filter.mp hmem).2
      rw [tryLock_fst] at this
      simpa using this

theorem cascadeChain_dropped_gate (numLevels now fuel : Nat) :
    ∀ i levels e, e ∈ (cascadeChain numLevels now i fuel levels).2 →
      e.gate = true := by
  induction fuel with
  | zero => intro i levels e he; cases he
  | succ fuel ih =>
      intro i levels e he
      simp only [cascadeChain] at he
      split at he
      · rcases List.mem_append.mp he with h | h
        · exact cascadeStep_dropped_gate numLevels now i levels e h
        · exact ih (i + 1) _ e h
      · exact cascadeStep_dropped_gate numLevels now i levels e he

theorem fireDrained_mem (es : List DEntry) (e : DEntry) :
    (e ∈ (fireDrained es).1 ↔ e ∈ es ∧ e.gate = false)
    ∧ (e ∈ (fireDrained es).2 ↔ e ∈ es ∧ e.gate = true) := by
  unfold fireDrained
  constructor
  · rw [List.mem_filter, tryLock_fst]
    cases e.gate <;> simp
  · rw [List.mem_filter, tryLock_fst]
    cases e.gate <;> simp

theorem reinsert_slot (numLevels now : Nat) (levels : List DLevel)
    (e : DEntry) (lv : DLevel)
    (hlv : levels.get?
        (startTimerPlace numLevels (levelCursor levels) (e.deadline - now)).1
      = some lv)
    (hs : (startTimerPlace numLevels (levelCursor levels) (e.deadline - now)).2
      < lv.slots.length) :
    ((reinsert numLevels now levels e).get?
        (startTimerPlace numLevels (levelCursor levels) (e.deadline - now)).1).map
      (fun lv' => (lv'.slots.get?
        (startTimerPlace numLevels (levelCursor levels) (e.deadline - now)).2).getD [])
      = some ((lv.slots.get?
          (startTimerPlace numLevels (levelCursor levels) (e.deadline - now)).2).getD []
        ++ [e]) := by
  simp only [reinsert, hlv]
  rw [List.get?_set_eq, hlv, List.get?_eq_get hs]
  simp
  rw [List.getElem?_set_eq hs]
  rfl

/-- C2: one pass of the driver: (a) the destination points of `ThreadRun`
are exactly the mixed-radix digits (one 2-bit digit, then 6-bit digits) of
the absolute tick count `(now - epoch) / precision`, the same digit
extraction as placement; with the (spec-modelled) pass body: (b) the pass
sets `lastAdvanced = now`; (c) level 0's cursor advances slot by slot to
`destPoints[0]`; (d) every drained level-0 entry is fired exactly when its
gate can be acquired and released unfired exactly when the gate is already
held; (e) every entry dropped by a cascade had a held gate (already fired or
canceled); (f) if level 0 completes no revolution, no coarser level is
touched (cascades happen only on revolutions).  Reinsertion of still-valid
cascaded entries goes through `reinsert` — the placement algorithm of
`StartTimer` on remaining ticks (see `reinsert_slot`). -/
theorem threadRun_pass_spec (numLevels prec epoch now : Nat) (st : WheelState)
    (lv0 : DLevel) (hlv0 : st.levels.get? 0 = some lv0)
    (hc : lv0.cursor < 4) (hs4 : lv0.slots.length = 4) :
    (∀ i, i < numLevels →
        (destPoints numLevels ((now - epoch) / prec)).get? i
          = some (specDigit ((now - epoch) / prec) i))
    ∧ (threadRunPass numLevels prec epoch now st).state.last = now
    ∧ ((threadRunPass numLevels prec epoch now st).state.levels.get? 0).map
        DLevel.cursor = some (((now - epoch) / prec) % 4)
    ∧ (∀ e, e ∈ (threadRunPass numLevels prec epoch now st).fired
        ↔ e ∈ (threadRunPass numLevels prec epoch now st).drained0
          ∧ e.gate = false)
    ∧ (∀ e, e ∈ (threadRunPass numLevels prec epoch now st).releasedUnfired
        ↔ e ∈ (threadRunPass numLevels prec epoch now st).drained0
          ∧ e.gate = true)
    ∧ (∀ e, e ∈ (threadRunPass numLevels prec epoch now st).dropped →
        e.gate = true)
    ∧ (lv0.cursor + ((((now - epoch) / prec) &&& (s_gear1 - 1)) + 4 - lv0.cursor) % 4 < 4 →
        ∀ i, 1 ≤ i →
          (threadRunPass numLevels prec epoch now st).state.levels.get? i
            = st.levels.get? i) := by
  have hlen0 : 0 < st.levels.length := by
    rcases List.get?_eq_some.mp hlv0 with ⟨h, _⟩
    exact h
  refine ⟨fun i hi => destPoints_eq_digits numLevels _ i hi, ?_, ?_, ?_, ?_, ?_, ?_⟩
  · simp only [threadRunPass, hlv0]
  · simp only [threadRunPass, hlv0]
    have hdp : ((now - epoch) / prec) &&& (s_gear1 - 1)
        = ((now - epoch) / prec) % 4 := by
      rw [s_gear1]
      exact and_3_eq_mod _
    rw [hdp]
    have hcur := drainSteps_cursor
      ((((now - epoch) / prec) % 4 + 4 - lv0.cursor) % 4) lv0.slots lv0.cursor hs4 hc
    split
    · rw [cascadeChain_cursor0 numLevels now (numLevels - 1) 1 _ (le_refl 1),
        List.get?_set_eq, hlv0]
      simp only [Option.map_map, Option.map_some]
      rw [hcur]
      exact congrArg some (cursor_dest_arith lv0.cursor ((now - epoch) / prec) hc)
    · rw [List.get?_set_eq, hlv0]
      simp only [Option.map_map, Option.map_some]
      rw [hcur]
      exact congrArg some (cursor_dest_arith lv0.cursor ((now - epoch) / prec) hc)
  · intro e
    simp only [threadRunPass, hlv0]
    exact (fireDrained_mem _ e).1
  · intro e
    simp only [threadRunPass, hlv0]
    exact (fireDrained_mem _ e).2
  · intro e
    simp only [threadRunPass, hlv0]
    split
    · exact fun he => cascadeChain_dropped_gate numLevels now (numLevels - 1) 1 _ e he
    · intro he
      cases he
  · intro hnowrap i hi
    simp only [threadRunPass, hlv0]
    rw [if_neg (by omega)]
    exact List.get?_set_ne _ _ (by omega)

theorem threadRun_pass_spec_witness :
    (threadRunPass 1 1 0 2
        { levels := [{ cursor := 0, slots := [[], [], [], []] }],
          last := 0 }).state.last = 2
    ∧ ((threadRunPass 1 1 0 2
        { levels := [{ cursor := 0, slots := [[], [], [], []] }],
          last := 0 }).state.levels.get? 0).map DLevel.cursor = some 2 := by
  have h := threadRun_pass_spec 1 1 0 2
    { levels := [{ cursor := 0, slots := [[], [], [], []] }], last := 0 }
    { cursor := 0, slots := [[], [], [], []] } rfl (by decide) rfl
  exact ⟨h.2.1, h.2.2.1⟩

end LibgoTimer
